import Mathlib

/-!
Verification of the deepx autostereogram library (Go) against its
natural-language specification.

The Go source is shallowly embedded:
* `uint8` channel values are `ℕ` (all constructed values are `< 256`;
  casts `uint8(...)` are modelled with explicit `% 256` where they occur);
* `float64` arithmetic of the synthesis formulas is modelled by exact
  rational arithmetic (`ℚ`), the standard idealisation of the published
  projection formulas the code implements;
* Go slices are modelled by total functions plus explicit width/height
  bounds; every slice access whose index is not structurally in range is
  guarded by an explicit bounds test, and an out-of-range access (a Go
  runtime panic) is modelled by `Option.none` / `Except.error`;
* the process-global `math/rand` source is modelled by a stream
  `g : ℕ → ℕ` of successive `rand.Intn` results, and the scheduling of the
  per-row goroutines that concurrently consume it is modelled by an explicit
  split function assigning global draw indices to each row's draws.
-/

namespace Deepx

/-! ### Color (source file `color.go`) -/

/-- Go `type Color color.RGBA`: four 8-bit channels, embedded as naturals. -/
structure Color where
  R : ℕ
  G : ℕ
  B : ℕ
  A : ℕ
deriving DecidableEq, Repr

/-- Well-formedness of an embedded `Color`: each channel fits in a `uint8`. -/
def Color.Wf (c : Color) : Prop :=
  c.R < 256 ∧ c.G < 256 ∧ c.B < 256 ∧ c.A < 256

instance (c : Color) : Decidable c.Wf := by
  unfold Color.Wf; exact inferInstance

/-- Uppercase hexadecimal digit character for `n < 16`, as produced by Go
`fmt.Sprintf` with the `%X` verb. -/
def toHexChar (n : ℕ) : Char :=
  if n < 10 then Char.ofNat (48 + n) else Char.ofNat (55 + n)

/-- The two uppercase hex digits of a byte, as produced by `%.2X`. -/
def byteHex (n : ℕ) : List Char :=
  [toHexChar (n / 16), toHexChar (n % 16)]

/-- Go `Color.Hex`: `fmt.Sprintf("#%.2X%.2X%.2X%.2X", c.R, c.G, c.B, c.A)`.
Strings are embedded as lists of characters. -/
def Color.Hex (c : Color) : List Char :=
  '#' :: (byteHex c.R ++ (byteHex c.G ++ (byteHex c.B ++ byteHex c.A)))

/-- Value of one hexadecimal digit character, upper or lower case, as
accepted by Go `strconv.ParseUint(s, 16, _)`; `none` on a non-digit. -/
def hexDigitVal (ch : Char) : Option ℕ :=
  if 48 ≤ ch.toNat ∧ ch.toNat ≤ 57 then some (ch.toNat - 48)
  else if 97 ≤ ch.toNat ∧ ch.toNat ≤ 102 then some (ch.toNat - 87)
  else if 65 ≤ ch.toNat ∧ ch.toNat ≤ 70 then some (ch.toNat - 55)
  else none

/-- Accumulating base-16 parse of a digit list; `none` on any non-digit. -/
def parseHexAcc : List Char → ℕ → Option ℕ
  | [], acc => some acc
  | ch :: rest, acc => (hexDigitVal ch).bind fun d => parseHexAcc rest (acc * 16 + d)

/-- Go `strconv.ParseUint(hex, 16, 32)`: rejects the empty string, any
non-hex-digit, and any value that does not fit in 32 bits. -/
def parseUintHex32 (s : List Char) : Option ℕ :=
  if s.isEmpty then none
  else (parseHexAcc s 0).bind fun v => if v < 4294967296 then some v else none

/-- Go `strings.TrimPrefix(hex, "#")`: drops one leading `#` if present. -/
def trimHash (s : List Char) : List Char :=
  if s.head? = some '#' then s.tail else s

/-- The padding step of `ColorFromHex`: right-pads with `F` up to 8
characters (`hex += strings.Repeat("F", 8-len(hex))` when `len(hex) < 8`). -/
def pad8 (s : List Char) : List Char :=
  if s.length < 8 then s ++ List.replicate (8 - s.length) 'F' else s

/-- Go `ColorFromHex`: trims one leading `#`, right-pads with `F` to 8
characters, parses as a 32-bit hex number, and unpacks the four channels
(`A = v & 0xFF`, `B = (v>>8) & 0xFF`, `G = (v>>16) & 0xFF`,
`R = uint8(v >> 24)`). -/
def ColorFromHex (s : List Char) : Option Color :=
  (parseUintHex32 (pad8 (trimHash s))).map fun v =>
    { R := v / 16777216 % 256
      G := v / 65536 % 256
      B := v / 256 % 256
      A := v % 256 }

/-- Go `Color.Equal`: exact channel-wise comparison, in source order
`A`, `B`, `R`, `G`. -/
def Color.Equal (c other : Color) : Bool :=
  c.A == other.A && c.B == other.B && c.R == other.R && c.G == other.G

/-- The 16-bit-per-channel view returned by Go `color.RGBA.RGBA()`:
each 8-bit channel `v` becomes `v | v << 8 = v * 257`, alpha-premultiplied
channels being exactly what `color.RGBA` stores. Order: `(r, g, b, a)`. -/
def Color.rgba16 (c : Color) : ℕ × ℕ × ℕ × ℕ :=
  (c.R * 257, c.G * 257, c.B * 257, c.A * 257)

/-- Go `ColorRGBA`: converts a 16-bit-per-channel `color.Color` value into
an 8-bit `Color` via `uint8(255 * float64(v) / math.MaxUint16)`.  For the
values this code feeds it (`v = c8 * 257` with `c8 < 256`) the float
computation is exact and equals the truncating natural division used here. -/
def ColorRGBA (r g b a : ℕ) : Color :=
  { R := 255 * r / 65535
    G := 255 * g / 65535
    B := 255 * b / 65535
    A := 255 * a / 65535 }

/-! ### Synthesis core (source file `deepx.go`) -/

/-- Ceiling of a rational, computable (kernel-reducible) form of `Int.ceil`,
modelling Go `math.Ceil`. -/
def ratCeil (q : ℚ) : ℤ := -Rat.floor (-q)

/-- Go `projSeparation`: `int(math.Ceil((1 - mu*z) * e / (2 - mu*z)))`. -/
def projSeparation (z mu e : ℚ) : ℤ :=
  ratCeil ((1 - mu * z) * e / (2 - mu * z))

/-- The occlusion/visibility loop of `drawAutoStereogram`:
`for t := 1; ; t++ { zt := ...; isVisible = zBuf[x-t][y] < zt && zBuf[x+t][y] < zt;
if !(isVisible && zt < 1) { break } }`.
Result `.ok (isVisible, t)` is the value of `isVisible` when the `break`
fires, together with the final evaluated `t`; `.error t` models the Go
runtime panic raised by the unguarded accesses `zBuf[x-t][y]` (needs
`t ≤ x`) and `zBuf[x+t][y]` (needs `x+t < W`), the second being reached
only when the first comparison was true (Go `&&` short-circuits).
`fuel` only drives the structural recursion: callers pass `W + 1`, and the
bounds test `x + t < W` fails strictly before such fuel can run out
(along the recursion `t + fuel` is constant, so `fuel = 0` forces
`t > W`, at which point `t ≤ x < W` already failed), so the
fuel-exhaustion value is never reached. -/
def occLoop (zrow : ℕ → ℚ) (W x : ℕ) (z mu e : ℚ) : ℕ → ℕ → Except ℕ (Bool × ℕ)
  | t, 0 => .error t
  | t, fuel+1 =>
    let zt := z + 2 * (2 - mu * z) * (t : ℚ) / (mu * e)
    if t ≤ x then
      if zrow (x - t) < zt then
        if x + t < W then
          if zrow (x + t) < zt then
            if zt < 1 then occLoop zrow W x z mu e (t + 1) fuel
            else .ok (true, t)
          else .ok (false, t)
        else .error t
      else .ok (false, t)
    else .error t

/-- The link-resolution loop of `drawAutoStereogram`:
`for k := same[left]; k != left && k != right; k = same[left] { ... }`,
returning the final `(left, right)` pair to which `same[left] = right` is
applied.  `fuel` drives the structural recursion; callers pass `2*W + 2`,
which the termination argument (each step strictly decreases
`(W - left) + (W - right)` under the link-table invariant) shows is never
exhausted. -/
def resolveLink (same : ℕ → ℕ) (left right : ℕ) : ℕ → ℕ × ℕ
  | 0 => (left, right)
  | fuel+1 =>
    if same left = left ∨ same left = right then (left, right)
    else if same left < right then resolveLink same (same left) right fuel
    else resolveLink same right (same left) fuel

/-- One iteration `x` of the left-to-right disparity/link pass of
`drawAutoStereogram` acting on the link table `same`; `none` models a Go
runtime panic inside the occlusion loop.  The low-bit adjustment
`(s + (s & y & 1)) / 2` is modelled by its value: `s & y & 1` is `1`
exactly when bit 0 of `s` and of `y` are both set, and Go `/` on `int`
truncates toward zero (`Int.tdiv`). -/
def bitAnd1 (s : ℤ) (y : ℕ) : ℤ :=
  if s.emod 2 = 1 ∧ y % 2 = 1 then 1 else 0

/-- One iteration `x` of the pass proper (see the comment above
`bitAnd1` for the conventions used). -/
def linkStep (zrow : ℕ → ℚ) (W : ℕ) (mu e : ℚ) (y : ℕ) (same : ℕ → ℕ) (x : ℕ) :
    Option (ℕ → ℕ) :=
  let s := projSeparation (zrow x) mu e
  let adj : ℤ := bitAnd1 s y
  let left : ℤ := (x : ℤ) - Int.tdiv (s + adj) 2
  let right : ℤ := left + s
  if left < 0 ∨ (W : ℤ) ≤ right then some same
  else
    match occLoop zrow W x (zrow x) mu e 1 (W + 1) with
    | .error _ => none
    | .ok (vis, _) =>
      if vis then
        let lr := resolveLink same left.toNat right.toNat (2 * W + 2)
        some (Function.update same lr.1 lr.2)
      else some same

/-- The full left-to-right disparity/link pass over one row: columns
`x = 0, …, W-1` in order, starting from the identity link table
(`same[x] = x`). -/
def linkPass (zrow : ℕ → ℚ) (W : ℕ) (mu e : ℚ) (y : ℕ) : Option (ℕ → ℕ) :=
  (List.range W).foldlM (linkStep zrow W mu e y) id

/-- Go `getRandomPaletteColor`, with the process-global `math/rand` source
modelled by the stream `g` of successive `rand.Intn` results and the draw
counter `c`: an empty palette consumes three draws (`rand.Intn(256)` for
R, G, B; alpha is 255), a non-empty one consumes one draw
(`rand.Intn(len(palette))`).  `% 256` / `% len` only totalise the model:
the stream positions feeding them are exactly the `rand.Intn` results,
which already lie below the bound.  Returns the color and the new counter. -/
def getRandomPaletteColor (palette : List Color) (g : ℕ → ℕ) (c : ℕ) : Color × ℕ :=
  match palette with
  | [] => ({ R := g c % 256, G := g (c + 1) % 256, B := g (c + 2) % 256, A := 255 }, c + 3)
  | p :: ps =>
    ((p :: ps).get ⟨g c % (p :: ps).length, Nat.mod_lt _ (Nat.succ_pos ps.length)⟩, c + 1)

/-- State of the right-to-left coloring pass over one row: the scratch
`pixels` array (Go zero value `Color{0,0,0,0}` outside written indices),
the number of random draws consumed so far, and the sequence of columns
`x` passed to `img.Set(x, y, …)` so far, in execution order. -/
structure RowResult where
  pix : ℕ → Color
  cnt : ℕ
  ws : List ℕ

/-- First `n` iterations of the right-to-left coloring pass
(`for x := imgWidth - 1; x >= 0; x--`), i.e. columns `W-1, …, W-n`:
`pixels[x] = pixels[same[x]]; if same[x] == x { pixels[x] = fresh };
img.Set(x, y, pixels[x])`. -/
def colorPassAux (same : ℕ → ℕ) (palette : List Color) (g : ℕ → ℕ) (W : ℕ) :
    ℕ → RowResult
  | 0 => { pix := fun _ => { R := 0, G := 0, B := 0, A := 0 }, cnt := 0, ws := [] }
  | n+1 =>
    let st := colorPassAux same palette g W n
    let x := W - 1 - n
    if same x = x then
      let cc := getRandomPaletteColor palette g st.cnt
      { pix := Function.update st.pix x cc.1, cnt := cc.2, ws := st.ws ++ [x] }
    else
      { pix := Function.update st.pix x (st.pix (same x)), cnt := st.cnt, ws := st.ws ++ [x] }

/-- The complete coloring pass over one row (all `W` columns). -/
def colorPass (same : ℕ → ℕ) (palette : List Color) (g : ℕ → ℕ) (W : ℕ) : RowResult :=
  colorPassAux same palette g W W

/-- The body of the per-row goroutine of `drawAutoStereogram`: link pass,
then coloring pass; `g` is the stream of `rand.Intn` results this row's
draws receive; `none` models a panic in the occlusion loop. -/
def drawRow (zBuf : ℕ → ℕ → ℚ) (W : ℕ) (mu e : ℚ) (palette : List Color)
    (g : ℕ → ℕ) (y : ℕ) : Option RowResult :=
  (linkPass (fun x => zBuf x y) W mu e y).map fun same => colorPass same palette g W

/-- Collects the per-row results for rows `0, …, n-1`; `none` as soon as
any row panics (`sync.WaitGroup` joins all rows; a panic in any goroutine
aborts the program). -/
def rowsUpTo (f : ℕ → Option RowResult) : ℕ → Option (List RowResult)
  | 0 => some []
  | n+1 =>
    match rowsUpTo f n, f n with
    | some l, some r => some (l ++ [r])
    | _, _ => none

/-- The output of `image.NewRGBA(image.Rect(0, 0, imgWidth, imgHeight))`
after synthesis: `pixels` holds row `y` at index `y` (entry `x` is the
color at `(x, y)`), `writes` holds, per row, the sequence of columns
written by `img.Set`. -/
structure OutImage where
  width : ℕ
  height : ℕ
  pixels : List (List Color)
  writes : List (List ℕ)
deriving DecidableEq, Repr

/-- Go `drawAutoStereogram`.  One goroutine per row `y`; each consumes
draws from the shared seeded source `g`, and `split y i` says which
position of `g` the scheduler hands to row `y`'s `i`-th draw (for a real
execution `split` ranges over the valid interleavings, see `ValidSplit`).
`none` models a runtime panic in some row. -/
def drawAutoStereogram (zBuf : ℕ → ℕ → ℚ) (imgWidth imgHeight : ℕ) (mu e : ℚ)
    (palette : List Color) (split : ℕ → ℕ → ℕ) (g : ℕ → ℕ) : Option OutImage :=
  (rowsUpTo (fun y => drawRow zBuf imgWidth mu e palette (fun i => g (split y i)) y)
      imgHeight).map fun rows =>
    { width := imgWidth
      height := imgHeight
      pixels := rows.map fun st => (List.range imgWidth).map st.pix
      writes := rows.map fun st => st.ws }

/-! ### Mask transparency and depth buffer (source file `deepx.go`) -/

/-- Go `isTransparentMaskPixel`.  The mask pixel is embedded as its 8-bit
premultiplied RGBA view (a `color.RGBA` value), whose `RGBA()` method
yields the 16-bit channels `v * 257` (see `Color.rgba16`).  With no
override the test is `a == 0` on the 16-bit alpha; with an override it is
`ColorRGBA(pxColor).Equal(*maskTransparentColor)`. -/
def isTransparentMaskPixel (px : Color) (maskTransparentColor : Option Color) : Bool :=
  match maskTransparentColor with
  | none => px.A * 257 == 0
  | some mtc => Color.Equal (ColorRGBA (px.R * 257) (px.G * 257) (px.B * 257) (px.A * 257)) mtc

/-- A decoded mask image: dimensions plus per-pixel color access
(`img.At(x, y)` for `x < width`, `y < height`), embedded at the 8-bit
RGBA level. -/
structure DecodedImage where
  width : ℕ
  height : ℕ
  pixelAt : ℕ → ℕ → Color

/-- Go `newDepthBufferFromImage`: a `width × height` array indexed
`[x][y]`, `0` for transparent pixels and `1` for all others (the source
allocates zeroed rows and sets `z[x][y] = 1` unless the pixel is
transparent, which is the same function). -/
def newDepthBufferFromImage (img : DecodedImage) (transparentColor : Option Color) :
    List (List ℚ) :=
  (List.range img.width).map fun x =>
    (List.range img.height).map fun y =>
      if isTransparentMaskPixel (img.pixelAt x y) transparentColor then 0 else 1

/-- Functional access to the depth buffer built from a mask: the value of
`newDepthBufferFromImage img tc` at `[x][y]` for in-range indices. -/
def depthAt (img : DecodedImage) (transparentColor : Option Color) (x y : ℕ) : ℚ :=
  if isTransparentMaskPixel (img.pixelAt x y) transparentColor then 0 else 1

/-! ### Configuration and entry point (source file `deepx.go`) -/

/-- Go `StereogramConfig`.  The source field `ERatio` is embedded as
`eRatioVal`. -/
structure StereogramConfig where
  maskTransparentColor : Option Color
  palette : List Color
  mu : ℚ
  dpi : ℤ
  eRatioVal : ℚ

/-- Go `defaultStereogramCfg`: empty palette, `Mu = 1/3`, `DPI = 72`,
`ERatio = 2.5`. -/
def defaultStereogramCfg : StereogramConfig :=
  { maskTransparentColor := none, palette := [], mu := 1 / 3, dpi := 72, eRatioVal := 5 / 2 }

/-- Go `StereogramOption`. -/
def StereogramOption := StereogramConfig → StereogramConfig

/-- Go `WithMaskTransparentColor`. -/
def WithMaskTransparentColor (color : Color) : StereogramOption :=
  fun cfg => { cfg with maskTransparentColor := some color }

/-- Go `WithColorPalette`. -/
def WithColorPalette (palette : List Color) : StereogramOption :=
  fun cfg => { cfg with palette := palette }

/-- Go `WithOutputDPI`. -/
def WithOutputDPI (dpi : ℤ) : StereogramOption :=
  fun cfg => { cfg with dpi := dpi }

/-- Go `WithEyeSepartionRatio` (source spelling): sets the eye-separation
ratio, `2.5` by default. -/
def WithEyeSepartionRatio (r : ℚ) : StereogramOption :=
  fun cfg => { cfg with eRatioVal := r }

/-- The error type of `NewStereogramFromMask` restricted to the post-decode
stage: the claimed (but, as proved below, never produced) validation
error. -/
inductive StereogramErr where
  | validation
deriving DecidableEq, Repr

/-- Go `NewStereogramFromMask` after a successful `image.Decode` (decoding
itself is outside the model): folds the options over the default
configuration, computes `e = math.Ceil(ERatio * DPI)`, builds the depth
buffer, and runs the synthesis.  The Go function returns a non-nil error
only on decode failure; the embedded post-decode stage can therefore only
return `.ok` (wrapped) or panic (`none`). -/
def NewStereogramFromMask (img : DecodedImage) (opts : List StereogramOption)
    (split : ℕ → ℕ → ℕ) (g : ℕ → ℕ) : Option (Except StereogramErr OutImage) :=
  let cfg := opts.foldl (fun c o => o c) defaultStereogramCfg
  let e : ℚ := (ratCeil (cfg.eRatioVal * (cfg.dpi : ℚ)) : ℤ)
  (drawAutoStereogram (depthAt img cfg.maskTransparentColor) img.width img.height
      cfg.mu e cfg.palette split g).map Except.ok

/-! ### Hex formatting/parsing round trip (claim C10) -/

/-- Parsing inverts formatting on a single hexadecimal digit. -/
theorem hexDigitVal_toHexChar : ∀ d < 16, hexDigitVal (toHexChar d) = some d := by decide

/-- Parsing a formatted byte folds its value into the accumulator. -/
theorem parseHexAcc_byteHex (n : ℕ) (hn : n < 256) (rest : List Char) (acc : ℕ) :
    parseHexAcc (byteHex n ++ rest) acc = parseHexAcc rest (acc * 256 + n) := by
  have h1 : n / 16 < 16 := by omega
  have h2 : n % 16 < 16 := by omega
  simp only [byteHex, List.cons_append, List.nil_append, parseHexAcc,
    hexDigitVal_toHexChar _ h1, hexDigitVal_toHexChar _ h2, Option.some_bind]
  rw [show (acc * 16 + n / 16) * 16 + n % 16 = acc * 256 + n by omega]
  rfl

/-- Parsing a formatted byte at the end of the input. -/
theorem parseHexAcc_byteHex_nil (n : ℕ) (hn : n < 256) (acc : ℕ) :
    parseHexAcc (byteHex n) acc = some (acc * 256 + n) := by
  rw [← List.append_nil (byteHex n), parseHexAcc_byteHex n hn, parseHexAcc]

/-- Trimming removes exactly one leading hash. -/
theorem trimHash_hash (l : List Char) : trimHash ('#' :: l) = l := by
  simp [trimHash]

/-- Padding leaves an 8-character string unchanged. -/
theorem pad8_of_len8 (l : List Char) (h : l.length = 8) : pad8 l = l := by
  rw [pad8, if_neg]; omega

/-- C10: for every `Color` (all `2^32` channel combinations),
`ColorFromHex (c.Hex())` succeeds and returns a color channel-wise equal
to `c`: the hex formatting and parsing functions form an exact round
trip. -/
theorem claim_C10_hex_round_trip (c : Color) (h : c.Wf) :
    ColorFromHex (Color.Hex c) = some c := by
  obtain ⟨hR, hG, hB, hA⟩ := h
  rw [Color.Hex, ColorFromHex, trimHash_hash, pad8_of_len8 _ (by simp [byteHex]),
    parseUintHex32]
  rw [if_neg (by simp [byteHex])]
  rw [parseHexAcc_byteHex _ hR, parseHexAcc_byteHex _ hG, parseHexAcc_byteHex _ hB,
    parseHexAcc_byteHex_nil _ hA, Option.some_bind]
  rw [if_pos (by omega)]
  refine congrArg some ?_
  rw [show c = Color.mk c.R c.G c.B c.A from rfl]
  simp only [Color.mk.injEq]
  refine ⟨by omega, by omega, by omega, by omega⟩

/-- Witness for C10 at the concrete color `#6AD6E3FF` from the examples. -/
theorem claim_C10_witness :
    (Color.mk 106 214 227 255).Wf ∧
      ColorFromHex (Color.Hex (Color.mk 106 214 227 255)) = some (Color.mk 106 214 227 255) :=
  ⟨by decide, claim_C10_hex_round_trip (Color.mk 106 214 227 255) (by decide)⟩

/-! ### Transparency predicate (claim C4) -/

/-- C4: a mask pixel with a transparent-color override is classified
transparent iff its R, G, B and A channels exactly equal the override's
channels (alpha included); without an override it is transparent iff its
alpha channel is exactly zero. -/
theorem claim_C4_transparency (px mtc : Color) :
    (isTransparentMaskPixel px (some mtc) = true ↔
      (px.R = mtc.R ∧ px.G = mtc.G ∧ px.B = mtc.B ∧ px.A = mtc.A)) ∧
    (isTransparentMaskPixel px none = true ↔ px.A = 0) := by
  have hconv : ∀ r : ℕ, 255 * (r * 257) / 65535 = r := fun r => by omega
  constructor
  · simp only [isTransparentMaskPixel, Color.Equal, ColorRGBA, hconv,
      Bool.and_eq_true, beq_iff_eq]
    constructor
    · rintro ⟨⟨⟨h1, h2⟩, h3⟩, h4⟩; exact ⟨h3, h4, h2, h1⟩
    · rintro ⟨h1, h2, h3, h4⟩; exact ⟨⟨⟨h4, h3⟩, h1⟩, h2⟩
  · simp only [isTransparentMaskPixel, beq_iff_eq]
    omega

/-! ### Depth buffer builder (claim C9) -/

/-- In-range `getD` access into a mapped range. -/
theorem getD_map_range {α : Type} (f : ℕ → α) (d : α) (n x : ℕ) (h : x < n) :
    (List.map f (List.range n)).getD x d = f x := by
  rw [List.getD_eq_getElem?_getD, List.getElem?_map, List.getElem?_range h]
  rfl

/-- C9: the depth buffer built from a decoded mask has exactly the mask's
dimensions (`width` outer entries of `height` values each, indexed
`[x][y]`), and every entry is `0` for a transparent pixel and `1`
otherwise — in particular every entry is `0` or `1`. -/
theorem claim_C9_depth_buffer (img : DecodedImage) (tc : Option Color) :
    (newDepthBufferFromImage img tc).length = img.width ∧
    (∀ col ∈ newDepthBufferFromImage img tc, col.length = img.height) ∧
    ∀ x < img.width, ∀ y < img.height,
      ((newDepthBufferFromImage img tc).getD x []).getD y 0
        = if isTransparentMaskPixel (img.pixelAt x y) tc then 0 else 1 := by
  refine ⟨by simp [newDepthBufferFromImage], ?_, ?_⟩
  · intro col hcol
    rw [newDepthBufferFromImage] at hcol
    obtain ⟨x, _, rfl⟩ := List.mem_map.mp hcol
    simp
  · intro x hx y hy
    rw [newDepthBufferFromImage, getD_map_range _ _ _ _ hx, getD_map_range _ _ _ _ hy]

/-- Witness for C9 at a concrete 1×1 fully transparent mask: the single
depth entry is `0`. -/
theorem claim_C9_witness :
    ((newDepthBufferFromImage ⟨1, 1, fun _ _ => ⟨7, 7, 7, 0⟩⟩ none).getD 0 []).getD 0 0 = 0 := by
  have h := (claim_C9_depth_buffer ⟨1, 1, fun _ _ => ⟨7, 7, 7, 0⟩⟩ none).2.2 0 (by decide) 0
    (by decide)
  rw [h]
  decide

/-! ### The link-table invariant (claims C3, C1, C8) -/

/-- The invariant maintained by the disparity/link pass: every in-range
column links to a column at or to its right, still in range. -/
def LinkInv (W : ℕ) (same : ℕ → ℕ) : Prop :=
  ∀ j, j < W → j ≤ same j ∧ same j < W

/-- Link resolution keeps `left ≤ right` and `right < W`. -/
theorem resolveLink_le (W : ℕ) (same : ℕ → ℕ) (hInv : LinkInv W same) :
    ∀ fuel left right, left ≤ right → right < W →
      (resolveLink same left right fuel).1 ≤ (resolveLink same left right fuel).2 ∧
      (resolveLink same left right fuel).2 < W := by
  intro fuel
  induction fuel with
  | zero => intro left right h1 h2; exact ⟨h1, h2⟩
  | succ fuel ih =>
    intro left right h1 h2
    rw [resolveLink]
    by_cases hk : same left = left ∨ same left = right
    · rw [if_pos hk]; exact ⟨h1, h2⟩
    · rw [if_neg hk]
      by_cases hlt : same left < right
      · rw [if_pos hlt]; exact ih (same left) right (le_of_lt hlt) h2
      · rw [if_neg hlt]
        exact ih right (same left) (by omega) (hInv left (lt_of_le_of_lt h1 h2)).2

/-- Writing a rightward in-range link preserves the invariant. -/
theorem LinkInv.update (W : ℕ) (same : ℕ → ℕ) (h : LinkInv W same) {l r : ℕ}
    (hlr : l ≤ r) (hr : r < W) : LinkInv W (Function.update same l r) := by
  intro j hj
  by_cases hjl : j = l
  · subst hjl; rw [Function.update_same]; exact ⟨hlr, hr⟩
  · rw [Function.update_noteq hjl]; exact h j hj

/-- The computable ceiling agrees with `Int.ceil`. -/
theorem ratCeil_eq_ceil (q : ℚ) : ratCeil q = ⌈q⌉ := by
  rw [ratCeil, show Rat.floor (-q) = ⌊-q⌋ from rfl, Int.floor_neg, neg_neg]

/-- For a valid configuration the projected separation is nonnegative. -/
theorem projSeparation_nonneg (z mu e : ℚ) (hmu0 : 0 ≤ mu) (hmu1 : mu ≤ 1) (he : 0 ≤ e)
    (hz0 : 0 ≤ z) (hz1 : z ≤ 1) : 0 ≤ projSeparation z mu e := by
  rw [projSeparation, ratCeil_eq_ceil]
  apply Int.ceil_nonneg
  apply div_nonneg
  · apply mul_nonneg _ he
    nlinarith
  · nlinarith

/-- Each column of the disparity/link pass preserves the invariant. -/
theorem linkStep_inv (zrow : ℕ → ℚ) (W : ℕ) (mu e : ℚ) (y : ℕ) (same same2 : ℕ → ℕ) (x : ℕ)
    (hmu0 : 0 ≤ mu) (hmu1 : mu ≤ 1) (he : 0 ≤ e)
    (hz0 : 0 ≤ zrow x) (hz1 : zrow x ≤ 1)
    (hInv : LinkInv W same)
    (hstep : linkStep zrow W mu e y same x = some same2) : LinkInv W same2 := by
  have hs := projSeparation_nonneg (zrow x) mu e hmu0 hmu1 he hz0 hz1
  simp only [linkStep] at hstep
  split at hstep
  · cases hstep; exact hInv
  · rename_i hedge
    split at hstep
    · cases hstep
    · split at hstep
      · cases hstep
        push_neg at hedge
        refine LinkInv.update W same hInv ?_ ?_
        · refine (resolveLink_le W same hInv _ _ _ ?_ ?_).1 <;> omega
        · refine (resolveLink_le W same hInv _ _ _ ?_ ?_).2 <;> omega
      · cases hstep; exact hInv

/-- The invariant is preserved along any prefix of the pass. -/
theorem foldlM_linkStep_inv (zrow : ℕ → ℚ) (W : ℕ) (mu e : ℚ) (y : ℕ)
    (hmu0 : 0 ≤ mu) (hmu1 : mu ≤ 1) (he : 0 ≤ e)
    (hz : ∀ x, 0 ≤ zrow x ∧ zrow x ≤ 1) :
    ∀ (l : List ℕ) (same same2 : ℕ → ℕ), LinkInv W same →
      l.foldlM (linkStep zrow W mu e y) same = some same2 → LinkInv W same2 := by
  intro l
  induction l with
  | nil =>
    intro same same2 hInv hfold
    rw [List.foldlM_nil] at hfold
    cases hfold; exact hInv
  | cons a l ih =>
    intro same same2 hInv hfold
    rw [List.foldlM_cons] at hfold
    cases hstep : linkStep zrow W mu e y same a with
    | none => rw [hstep] at hfold; cases hfold
    | some s1 =>
      rw [hstep] at hfold
      exact ih s1 same2
        (linkStep_inv zrow W mu e y same s1 a hmu0 hmu1 he (hz a).1 (hz a).2 hInv hstep) hfold

/-- A completed disparity/link pass satisfies the invariant. -/
theorem linkPass_inv (zrow : ℕ → ℚ) (W : ℕ) (mu e : ℚ) (y : ℕ) (same : ℕ → ℕ)
    (hmu0 : 0 ≤ mu) (hmu1 : mu ≤ 1) (he : 0 ≤ e)
    (hz : ∀ x, 0 ≤ zrow x ∧ zrow x ≤ 1)
    (hpass : linkPass zrow W mu e y = some same) : LinkInv W same :=
  foldlM_linkStep_inv zrow W mu e y hmu0 hmu1 he hz (List.range W) id same
    (fun j hj => ⟨Nat.le_refl j, hj⟩) hpass

/-- C3: whenever the left-to-right disparity/link pass of a row completes,
for a valid configuration (`0 < mu ≤ 1`, `0 < e`, depth values in
`[0, 1]`), every entry of the link table satisfies `same x ≥ x` and stays
in range; consequently, when `same x ≠ x` the linked column lies strictly
to the right of `x`, so the right-to-left coloring pass copies only colors
that are already finally assigned. -/
theorem claim_C3_link_invariant (zrow : ℕ → ℚ) (W : ℕ) (mu e : ℚ) (y : ℕ) (same : ℕ → ℕ)
    (hmu0 : 0 < mu) (hmu1 : mu ≤ 1) (he : 0 < e)
    (hz : ∀ x, 0 ≤ zrow x ∧ zrow x ≤ 1)
    (hpass : linkPass zrow W mu e y = some same) :
    ∀ x < W, x ≤ same x ∧ same x < W :=
  linkPass_inv zrow W mu e y same (le_of_lt hmu0) hmu1 (le_of_lt he) hz hpass

unseal Rat.mul Rat.inv Rat.add Rat.sub in
/-- Witness for C3 on a concrete 2-column all-background row at the
default `mu` and `e = 180` (the default `2.5 * 72`). -/
theorem claim_C3_witness :
    linkPass (fun _ => 0) 2 (1 / 3) 180 0 = some id ∧ ∀ x < 2, x ≤ id x ∧ id x < 2 := by
  constructor
  · rfl
  · exact claim_C3_link_invariant (fun _ => 0) 2 (1 / 3) 180 0 id (by decide) (by decide)
      (by decide) (fun _ => ⟨le_refl 0, zero_le_one⟩) (by rfl)

/-! ### Palette containment (claim C1) -/

/-- A freshly drawn color comes from the palette when one is configured. -/
theorem getRandomPaletteColor_mem (palette : List Color) (hpal : palette ≠ []) (g : ℕ → ℕ)
    (c : ℕ) : (getRandomPaletteColor palette g c).1 ∈ palette := by
  cases palette with
  | nil => exact absurd rfl hpal
  | cons p ps => exact List.get_mem _ _ _

/-- After `n` steps of the right-to-left coloring pass, every already
processed column (`W - n ≤ x < W`) holds a palette color: fresh columns
draw from the palette, and linked columns copy from a strictly greater,
already processed column by the link-table invariant. -/
theorem colorPassAux_mem (same : ℕ → ℕ) (palette : List Color) (g : ℕ → ℕ) (W : ℕ)
    (hpal : palette ≠ []) (hInv : LinkInv W same) :
    ∀ n x, W - n ≤ x → x < W → (colorPassAux same palette g W n).pix x ∈ palette := by
  intro n
  induction n with
  | zero => intro x h1 h2; omega
  | succ n ih =>
    intro x h1 h2
    simp only [colorPassAux]
    by_cases hsame : same (W - 1 - n) = W - 1 - n
    · rw [if_pos hsame]
      dsimp only
      by_cases hx : x = W - 1 - n
      · subst hx
        rw [Function.update_same]
        exact getRandomPaletteColor_mem palette hpal g _
      · rw [Function.update_noteq hx]
        exact ih x (by omega) h2
    · rw [if_neg hsame]
      dsimp only
      by_cases hx : x = W - 1 - n
      · subst hx
        rw [Function.update_same]
        obtain ⟨hle, hltW⟩ := hInv (W - 1 - n) h2
        exact ih (same (W - 1 - n)) (by omega) hltW
      · rw [Function.update_noteq hx]
        exact ih x (by omega) h2

/-- Every row result collected by `rowsUpTo` comes from its row index. -/
theorem rowsUpTo_mem (f : ℕ → Option RowResult) :
    ∀ (n : ℕ) (rows : List RowResult), rowsUpTo f n = some rows →
      ∀ st ∈ rows, ∃ y, y < n ∧ f y = some st := by
  intro n
  induction n with
  | zero =>
    intro rows h st hst
    rw [rowsUpTo] at h
    cases h
    simp at hst
  | succ n ih =>
    intro rows h st hst
    rw [rowsUpTo] at h
    cases hl : rowsUpTo f n with
    | none => rw [hl] at h; cases h
    | some l =>
      cases hf : f n with
      | none => rw [hl, hf] at h; cases h
      | some r =>
        rw [hl, hf] at h
        cases h
        rcases List.mem_append.mp hst with h1 | h2
        · obtain ⟨y, hy, hfy⟩ := ih l hl st h1
          exact ⟨y, by omega, hfy⟩
        · rw [List.mem_singleton] at h2
          subst h2
          exact ⟨n, by omega, hf⟩

/-- `rowsUpTo` collects exactly one result per row. -/
theorem rowsUpTo_length (f : ℕ → Option RowResult) :
    ∀ (n : ℕ) (rows : List RowResult), rowsUpTo f n = some rows → rows.length = n := by
  intro n
  induction n with
  | zero => intro rows h; rw [rowsUpTo] at h; cases h; rfl
  | succ n ih =>
    intro rows h
    rw [rowsUpTo] at h
    cases hl : rowsUpTo f n with
    | none => rw [hl] at h; cases h
    | some l =>
      cases hf : f n with
      | none => rw [hl, hf] at h; cases h
      | some r =>
        rw [hl, hf] at h
        cases h
        simp [ih l hl]

/-- C1: for every depth field and every valid configuration
(`0 < mu ≤ 1`, `0 < e`, depth values in `[0, 1]`, as constrained by the
data model) with a non-empty palette, every pixel of the output image of
`drawAutoStereogram` is one of the palette entries — whether freshly
drawn or copied through a link.  In particular a single-color palette
yields a solid image (see the witness). -/
theorem claim_C1_palette_containment (zBuf : ℕ → ℕ → ℚ) (W H : ℕ) (mu e : ℚ)
    (palette : List Color) (split : ℕ → ℕ → ℕ) (g : ℕ → ℕ) (img : OutImage)
    (hmu0 : 0 < mu) (hmu1 : mu ≤ 1) (he : 0 < e)
    (hz : ∀ x y, 0 ≤ zBuf x y ∧ zBuf x y ≤ 1)
    (hpal : palette ≠ [])
    (hdraw : drawAutoStereogram zBuf W H mu e palette split g = some img) :
    ∀ row ∈ img.pixels, ∀ c ∈ row, c ∈ palette := by
  rw [drawAutoStereogram] at hdraw
  cases hrows : rowsUpTo (fun y => drawRow zBuf W mu e palette (fun i => g (split y i)) y) H with
  | none => rw [hrows] at hdraw; cases hdraw
  | some rows =>
    rw [hrows] at hdraw
    cases hdraw
    intro row hrow c hc
    obtain ⟨st, hst, rfl⟩ := List.mem_map.mp hrow
    obtain ⟨x, hx, rfl⟩ := List.mem_map.mp hc
    obtain ⟨y, hy, hf⟩ := rowsUpTo_mem _ H rows hrows st hst
    rw [drawRow] at hf
    cases hpassEq : linkPass (fun x => zBuf x y) W mu e y with
    | none => rw [hpassEq] at hf; cases hf
    | some same =>
      rw [hpassEq] at hf
      cases hf
      have hInv := linkPass_inv (fun x => zBuf x y) W mu e y same (le_of_lt hmu0) hmu1
        (le_of_lt he) (fun x => hz x y) hpassEq
      exact colorPassAux_mem same palette _ W hpal hInv W x (by omega) (List.mem_range.mp hx)

/-- The single red palette entry of the spec scenario. -/
def redColor : Color := { R := 255, G := 0, B := 0, A := 255 }

/-- The solid-red 2×2 output of the witness below. -/
def redImage : OutImage :=
  { width := 2, height := 2
    pixels := [[redColor, redColor], [redColor, redColor]]
    writes := [[1, 0], [1, 0]] }

unseal Rat.mul Rat.inv Rat.add Rat.sub in
/-- Witness for C1: a 2×2 all-background depth field with the single-red
palette produces exactly the solid red image, and the theorem applies. -/
theorem claim_C1_witness :
    drawAutoStereogram (fun _ _ => 0) 2 2 (1 / 3) 180 [redColor] (fun _ i => i) (fun i => i)
      = some redImage ∧
    ∀ row ∈ redImage.pixels, ∀ c ∈ row, c ∈ [redColor] := by
  constructor
  · decide
  · exact claim_C1_palette_containment (fun _ _ => 0) 2 2 (1 / 3) 180 [redColor]
      (fun _ i => i) (fun i => i) redImage (by decide) (by decide) (by decide)
      (fun _ _ => ⟨le_refl 0, zero_le_one⟩) (by decide) (by decide)

/-! ### Dimensions and write coverage (claim C8) -/

/-- The columns written by the coloring pass, in order. -/
theorem colorPassAux_ws (same : ℕ → ℕ) (palette : List Color) (g : ℕ → ℕ) (W : ℕ) :
    ∀ n, (colorPassAux same palette g W n).ws = (List.range n).map (fun k => W - 1 - k) := by
  intro n
  induction n with
  | zero => rfl
  | succ n ih =>
    simp only [colorPassAux]
    by_cases hsame : same (W - 1 - n) = W - 1 - n
    · rw [if_pos hsame]
      dsimp only
      rw [ih, List.range_succ, List.map_append]
      rfl
    · rw [if_neg hsame]
      dsimp only
      rw [ih, List.range_succ, List.map_append]
      rfl

/-- Each in-range column occurs exactly once in the write sequence. -/
theorem count_rev_range (W x : ℕ) (hx : x < W) :
    ((List.range W).map (fun k => W - 1 - k)).count x = 1 := by
  apply List.count_eq_one_of_mem
  · refine List.Nodup.map_on ?_ (List.nodup_range W)
    intro a ha b hb heq
    have ha2 := List.mem_range.mp ha
    have hb2 := List.mem_range.mp hb
    omega
  · rw [List.mem_map]
    exact ⟨W - 1 - x, List.mem_range.mpr (by omega), by omega⟩

/-- C8: the output image of `drawAutoStereogram` has exactly the input
dimensions (`H` rows of `W` pixels each), and in every row the coloring
pass writes each column `x < W` exactly once (`W` writes per row, each
in-range column counted once — no pixel is left unassigned and none is
written twice). -/
theorem claim_C8_dims_coverage (zBuf : ℕ → ℕ → ℚ) (W H : ℕ) (mu e : ℚ)
    (palette : List Color) (split : ℕ → ℕ → ℕ) (g : ℕ → ℕ) (img : OutImage)
    (hdraw : drawAutoStereogram zBuf W H mu e palette split g = some img) :
    img.width = W ∧ img.height = H ∧
    img.pixels.length = H ∧ (∀ row ∈ img.pixels, row.length = W) ∧
    img.writes.length = H ∧
    (∀ ws ∈ img.writes, ws.length = W ∧ ∀ x < W, ws.count x = 1) := by
  rw [drawAutoStereogram] at hdraw
  cases hrows : rowsUpTo (fun y => drawRow zBuf W mu e palette (fun i => g (split y i)) y) H with
  | none => rw [hrows] at hdraw; cases hdraw
  | some rows =>
    rw [hrows] at hdraw
    cases hdraw
    have hlen := rowsUpTo_length _ H rows hrows
    refine ⟨rfl, rfl, by simpa using hlen, ?_, by simpa using hlen, ?_⟩
    · intro row hrow
      obtain ⟨st, _, rfl⟩ := List.mem_map.mp hrow
      simp
    · intro ws hws
      obtain ⟨st, hst, rfl⟩ := List.mem_map.mp hws
      obtain ⟨y, hy, hf⟩ := rowsUpTo_mem _ H rows hrows st hst
      rw [drawRow] at hf
      cases hpassEq : linkPass (fun x => zBuf x y) W mu e y with
      | none => rw [hpassEq] at hf; cases hf
      | some same =>
        rw [hpassEq] at hf
        cases hf
        constructor
        · simp only [colorPass]
          rw [colorPassAux_ws]
          simp
        · intro x hx
          simp only [colorPass]
          rw [colorPassAux_ws]
          exact count_rev_range W x hx

/-- The 1×1 output of the C8 witness: with an empty palette the single
fresh pixel takes the first three stream draws `0, 1, 2` as R, G, B. -/
def grayImage : OutImage :=
  { width := 1, height := 1
    pixels := [[{ R := 0, G := 1, B := 2, A := 255 }]]
    writes := [[0]] }

unseal Rat.mul Rat.inv Rat.add Rat.sub in
/-- Witness for C8 on a concrete 1×1 synthesis with empty palette. -/
theorem claim_C8_witness :
    grayImage.width = 1 ∧ grayImage.height = 1 ∧
    grayImage.pixels.length = 1 ∧ (∀ row ∈ grayImage.pixels, row.length = 1) ∧
    grayImage.writes.length = 1 ∧
    (∀ ws ∈ grayImage.writes, ws.length = 1 ∧ ∀ x < 1, ws.count x = 1) :=
  claim_C8_dims_coverage (fun _ _ => 0) 1 1 (1 / 3) 180 [] (fun _ i => i) (fun i => i)
    grayImage (by decide)

/-! ### Occlusion loop bounds (claim C7) -/

/-- The `t` at which the occlusion loop stops: the final evaluated `t`,
whether the loop broke normally (`.ok`) or panicked on an out-of-range
access (`.error`).  Every `t` the loop evaluates is at most this value. -/
def occExitT : Except ℕ (Bool × ℕ) → ℕ
  | .error t => t
  | .ok (_, t) => t

/-- Any run of the occlusion loop started at `t` with the loop invariant
(`t = 1`, or the previous iteration satisfied `zt < 1`) stops at a `t`
bounded by `max 1 ⌈(1-z)·mu·e / (2·(2-mu·z))⌉`. -/
theorem occLoop_exit_le_aux (zrow : ℕ → ℚ) (W x : ℕ) (z mu e : ℚ)
    (hmu0 : 0 < mu) (hmu1 : mu ≤ 1) (he : 0 < e) (hz0 : 0 ≤ z) (hz1 : z ≤ 1) :
    ∀ (fuel t : ℕ), 1 ≤ t → (t = 1 ∨ z + 2 * (2 - mu * z) * ((t : ℚ) - 1) / (mu * e) < 1) →
      (occExitT (occLoop zrow W x z mu e t fuel) : ℤ)
        ≤ max 1 (ratCeil ((1 - z) * mu * e / (2 * (2 - mu * z)))) := by
  have hA : (0 : ℚ) < 2 * (2 - mu * z) := by nlinarith
  have hB : (0 : ℚ) < mu * e := mul_pos hmu0 he
  have hexit : ∀ t : ℕ, 1 ≤ t →
      (t = 1 ∨ z + 2 * (2 - mu * z) * ((t : ℚ) - 1) / (mu * e) < 1) →
      (t : ℤ) ≤ max 1 (ratCeil ((1 - z) * mu * e / (2 * (2 - mu * z)))) := by
    intro t ht1 hinv
    rcases hinv with h1 | hlt
    · subst h1
      exact le_max_of_le_left (by omega)
    · have hmul : 2 * (2 - mu * z) * ((t : ℚ) - 1) < (1 - z) * (mu * e) := by
        have h2 : 2 * (2 - mu * z) * ((t : ℚ) - 1) / (mu * e) < 1 - z := by linarith
        calc 2 * (2 - mu * z) * ((t : ℚ) - 1)
            = 2 * (2 - mu * z) * ((t : ℚ) - 1) / (mu * e) * (mu * e) := by
              field_simp
          _ < (1 - z) * (mu * e) := mul_lt_mul_of_pos_right h2 hB
      have hq : (((t : ℤ) - 1 : ℤ) : ℚ) < (1 - z) * mu * e / (2 * (2 - mu * z)) := by
        rw [lt_div_iff₀ hA]
        push_cast
        nlinarith
      have := Int.lt_ceil.mpr hq
      rw [ratCeil_eq_ceil]
      omega
  intro fuel
  induction fuel with
  | zero =>
    intro t ht1 hinv
    exact hexit t ht1 hinv
  | succ fuel ih =>
    intro t ht1 hinv
    simp only [occLoop]
    by_cases h1 : t ≤ x
    · rw [if_pos h1]
      by_cases h2 : zrow (x - t) < z + 2 * (2 - mu * z) * (t : ℚ) / (mu * e)
      · rw [if_pos h2]
        by_cases h3 : x + t < W
        · rw [if_pos h3]
          by_cases h4 : zrow (x + t) < z + 2 * (2 - mu * z) * (t : ℚ) / (mu * e)
          · rw [if_pos h4]
            by_cases h5 : z + 2 * (2 - mu * z) * (t : ℚ) / (mu * e) < 1
            · rw [if_pos h5]
              refine ih (t + 1) (by omega) (Or.inr ?_)
              push_cast
              convert h5 using 3
              ring
            · rw [if_neg h5]
              exact hexit t ht1 hinv
          · rw [if_neg h4]
            exact hexit t ht1 hinv
        · rw [if_neg h3]
          exact hexit t ht1 hinv
      · rw [if_neg h2]
        exact hexit t ht1 hinv
    · rw [if_neg h1]
      exact hexit t ht1 hinv

/-- C7, amended: for a valid configuration every `t` evaluated by the
occlusion loop is bounded by `max 1 ⌈(1-z)·mu·e / (2·(2-mu·z))⌉` (the
first `t` at which `zt ≥ 1`); the claimed bound `t ≤ min(x, width-1-x)`
does not hold in general and the unguarded accesses can leave the array
(see `claim_C7_counterexample`), exactly the edge case §9 of the spec
says must be defended against explicitly. -/
theorem claim_C7_occlusion_bound (zrow : ℕ → ℚ) (W x : ℕ) (z mu e : ℚ)
    (hmu0 : 0 < mu) (hmu1 : mu ≤ 1) (he : 0 < e) (hz0 : 0 ≤ z) (hz1 : z ≤ 1) :
    (occExitT (occLoop zrow W x z mu e 1 (W + 1)) : ℤ)
      ≤ max 1 (ratCeil ((1 - z) * mu * e / (2 * (2 - mu * z)))) :=
  occLoop_exit_le_aux zrow W x z mu e hmu0 hmu1 he hz0 hz1 (W + 1) 1 (le_refl 1) (Or.inl rfl)

unseal Rat.mul Rat.inv Rat.add Rat.sub in
/-- Witness for the C7 bound at a concrete interior column: `W = 5`,
`x = 2`, `z = 0`, `mu = 1/3`, `e = 4`; the loop breaks at `t = 1` and the
bound evaluates to `1`. -/
theorem claim_C7_witness :
    (occExitT (occLoop (fun _ => 0) 5 2 0 (1 / 3) 4 1 6) : ℤ)
      ≤ max 1 (ratCeil ((1 - 0) * (1 / 3) * 4 / (2 * (2 - 1 / 3 * 0)))) :=
  claim_C7_occlusion_bound (fun _ => 0) 5 2 0 (1 / 3) 4 (by decide) (by decide) (by decide)
    (le_refl 0) zero_le_one

unseal Rat.mul Rat.inv Rat.add Rat.sub in
/-- Counterexample to C7 as frozen: with `mu = 1/3 ∈ (0,1]`, `e = 1 > 0`,
a 2-wide all-foreground row (depth 1 ∈ [0,1]) and `y = 0`, column `x = 0`
passes the edge check (`s = 1`, even-row parity term `s & y & 1 = 0`, so
`left = 0 - 1/2 = 0` and `right = 1 < 2`),
yet the occlusion loop evaluates `t = 1 > min(x, width-1-x) = 0` and the
access `zBuf[x-t][y] = zBuf[-1][y]` is out of range — the row computation
panics (`linkStep` returns `none`). -/
theorem claim_C7_counterexample :
    linkStep (fun _ => 1) 2 (1 / 3) 1 0 id 0 = none ∧
    occLoop (fun _ => 1) 2 0 1 (1 / 3) 1 1 3 = .error 1 ∧
    ¬((1 : ℕ) ≤ min 0 (2 - 1 - 0)) := by
  refine ⟨rfl, rfl, by decide⟩

/-! ### Totality of synthesis (claim C6) -/

unseal Rat.mul Rat.inv Rat.add Rat.sub in
/-- C6: evaluation of the code at the failing input.  For the valid
configuration `mu = 1/3` (the default), `e = 1` (realisable as
`ceil(0.5 * 2)` from `WithOutputDPI 2` and eye-separation ratio `0.5`)
and the 2×1 all-foreground depth field (every value `1 ∈ [0,1]`),
`drawAutoStereogram` does not return an image: at `x = 0` the edge check
passes (`s = 1`, `left = 0`, `right = 1 < 2`) and the occlusion loop
immediately reads `zBuf[-1][0]`, a Go runtime panic (index out of
range), modelled by `none`. -/
theorem claim_C6_panic :
    drawAutoStereogram (fun _ _ => 1) 2 1 (1 / 3) 1 [] (fun _ i => i) (fun i => i) = none := by
  rfl

/-! ### Zero-dimension masks (claim C5) -/

/-- When every row synthesises, `rowsUpTo` succeeds. -/
theorem rowsUpTo_total (f : ℕ → Option RowResult) (hf : ∀ y, ∃ r, f y = some r) :
    ∀ n, ∃ l, rowsUpTo f n = some l := by
  intro n
  induction n with
  | zero => exact ⟨[], rfl⟩
  | succ n ih =>
    obtain ⟨l, hl⟩ := ih
    obtain ⟨r, hr⟩ := hf n
    refine ⟨l ++ [r], ?_⟩
    rw [rowsUpTo, hl, hr]

/-- C5, amended: `NewStereogramFromMask` performs no dimension
validation: a decoded mask of zero width or zero height is accepted — the
row-parallel synthesis runs over an empty column or row range, does not
crash, and the call returns an empty image of the same dimensions with a
nil error (never a validation error). -/
theorem claim_C5_zero_dims (img : DecodedImage) (opts : List StereogramOption)
    (split : ℕ → ℕ → ℕ) (g : ℕ → ℕ) (h : img.width = 0 ∨ img.height = 0) :
    ∃ oi, NewStereogramFromMask img opts split g = some (Except.ok oi) ∧
      oi.width = img.width ∧ oi.height = img.height := by
  simp only [NewStereogramFromMask]
  rcases h with h0 | h0
  · rw [h0, drawAutoStereogram]
    have htot : ∀ y, ∃ r,
        drawRow (depthAt img (opts.foldl (fun c o => o c) defaultStereogramCfg).maskTransparentColor)
          0 (opts.foldl (fun c o => o c) defaultStereogramCfg).mu
          ((ratCeil ((opts.foldl (fun c o => o c) defaultStereogramCfg).eRatioVal *
            ((opts.foldl (fun c o => o c) defaultStereogramCfg).dpi : ℚ)) : ℤ) : ℚ)
          (opts.foldl (fun c o => o c) defaultStereogramCfg).palette
          (fun i => g (split y i)) y = some r := by
      intro y
      exact ⟨_, rfl⟩
    obtain ⟨l, hl⟩ := rowsUpTo_total _ htot img.height
    rw [hl]
    exact ⟨_, rfl, rfl, rfl⟩
  · rw [h0, drawAutoStereogram]
    rw [show rowsUpTo _ 0 = some [] from rfl]
    exact ⟨_, rfl, rfl, rfl⟩

/-- Witness for C5 at a concrete 0×2 decoded mask with default options. -/
theorem claim_C5_witness :
    ∃ oi, NewStereogramFromMask ⟨0, 2, fun _ _ => ⟨0, 0, 0, 0⟩⟩ [] (fun _ i => i) (fun i => i)
        = some (Except.ok oi) ∧ oi.width = 0 ∧ oi.height = 2 :=
  claim_C5_zero_dims ⟨0, 2, fun _ _ => ⟨0, 0, 0, 0⟩⟩ [] (fun _ i => i) (fun i => i) (Or.inl rfl)

unseal Rat.mul Rat.inv Rat.add Rat.sub in
/-- Counterexample to C5 as frozen: a successfully decoded 0×0 mask is
not rejected — `NewStereogramFromMask` returns the empty image with a nil
error instead of a non-nil validation error. -/
theorem claim_C5_counterexample :
    NewStereogramFromMask ⟨0, 0, fun _ _ => ⟨0, 0, 0, 0⟩⟩ [] (fun _ i => i) (fun i => i)
      = some (Except.ok { width := 0, height := 0, pixels := [], writes := [] }) := by
  rfl

/-! ### Determinism and the draw schedule (claim C2) -/

/-- The new draw counter depends only on the palette, not on the drawn
values. -/
theorem getRandomPaletteColor_cnt (palette : List Color) (g : ℕ → ℕ) (c : ℕ) :
    (getRandomPaletteColor palette g c).2 = c + (if palette.isEmpty then 3 else 1) := by
  cases palette <;> rfl

/-- The number of draws a row consumes is independent of the stream. -/
theorem colorPassAux_cnt_indep (same : ℕ → ℕ) (palette : List Color) (W : ℕ)
    (g1 g2 : ℕ → ℕ) :
    ∀ n, (colorPassAux same palette g1 W n).cnt = (colorPassAux same palette g2 W n).cnt := by
  intro n
  induction n with
  | zero => rfl
  | succ n ih =>
    simp only [colorPassAux]
    by_cases hsame : same (W - 1 - n) = W - 1 - n
    · rw [if_pos hsame, if_pos hsame]
      dsimp only
      rw [getRandomPaletteColor_cnt, getRandomPaletteColor_cnt, ih]
    · rw [if_neg hsame, if_neg hsame]
      exact ih

/-- The draw counter is monotone along the coloring pass. -/
theorem colorPassAux_cnt_step (same : ℕ → ℕ) (palette : List Color) (g : ℕ → ℕ) (W n : ℕ) :
    (colorPassAux same palette g W n).cnt ≤ (colorPassAux same palette g W (n + 1)).cnt := by
  simp only [colorPassAux]
  by_cases hsame : same (W - 1 - n) = W - 1 - n
  · rw [if_pos hsame]
    dsimp only
    rw [getRandomPaletteColor_cnt]
    omega
  · rw [if_neg hsame]

/-- A fresh draw depends only on the stream positions it consumes. -/
theorem getRandomPaletteColor_congr (palette : List Color) (g1 g2 : ℕ → ℕ) (c : ℕ)
    (hag : ∀ i < (getRandomPaletteColor palette g1 c).2, g1 i = g2 i) :
    getRandomPaletteColor palette g1 c = getRandomPaletteColor palette g2 c := by
  cases palette with
  | nil =>
    simp only [getRandomPaletteColor]
    rw [hag c (by rw [getRandomPaletteColor_cnt]; simp),
      hag (c + 1) (by rw [getRandomPaletteColor_cnt]; simp),
      hag (c + 2) (by rw [getRandomPaletteColor_cnt]; simp)]
  | cons p ps =>
    have hgc : g1 c = g2 c := hag c (by rw [getRandomPaletteColor_cnt]; simp)
    simp only [getRandomPaletteColor, hgc]

/-- The coloring pass depends only on the stream positions it consumes. -/
theorem colorPassAux_congr (same : ℕ → ℕ) (palette : List Color) (W : ℕ) (g1 g2 : ℕ → ℕ) :
    ∀ n, (∀ i < (colorPassAux same palette g1 W n).cnt, g1 i = g2 i) →
      colorPassAux same palette g1 W n = colorPassAux same palette g2 W n := by
  intro n
  induction n with
  | zero => intro _; rfl
  | succ n ih =>
    intro hag
    have hstep := colorPassAux_cnt_step same palette g1 W n
    have hIH := ih fun i hi => hag i (lt_of_lt_of_le hi hstep)
    simp only [colorPassAux]
    rw [← hIH]
    by_cases hsame : same (W - 1 - n) = W - 1 - n
    · rw [if_pos hsame, if_pos hsame]
      have hcnt : (colorPassAux same palette g1 W (n + 1)).cnt
          = (getRandomPaletteColor palette g1 (colorPassAux same palette g1 W n).cnt).2 := by
        simp only [colorPassAux]
        rw [if_pos hsame]
      rw [getRandomPaletteColor_congr palette g1 g2 (colorPassAux same palette g1 W n).cnt
        (fun i hi => hag i (by rw [hcnt]; exact hi))]
    · rw [if_neg hsame, if_neg hsame]

/-- The number of random draws row `y`'s goroutine makes: zero if the row
panics, otherwise one draw per fresh column (three per fresh column with
an empty palette).  Stream-independent by `colorPassAux_cnt_indep`. -/
def rowDrawCount (zBuf : ℕ → ℕ → ℚ) (W : ℕ) (mu e : ℚ) (palette : List Color) (y : ℕ) : ℕ :=
  match linkPass (fun x => zBuf x y) W mu e y with
  | none => 0
  | some same => (colorPass same palette (fun _ => 0) W).cnt

/-- A row's result depends only on the draws it actually consumes. -/
theorem drawRow_congr (zBuf : ℕ → ℕ → ℚ) (W : ℕ) (mu e : ℚ) (palette : List Color)
    (g1 g2 : ℕ → ℕ) (y : ℕ)
    (hag : ∀ i < rowDrawCount zBuf W mu e palette y, g1 i = g2 i) :
    drawRow zBuf W mu e palette g1 y = drawRow zBuf W mu e palette g2 y := by
  rw [drawRow, drawRow]
  rw [rowDrawCount] at hag
  cases hpassEq : linkPass (fun x => zBuf x y) W mu e y with
  | none => rfl
  | some same =>
    rw [hpassEq] at hag
    dsimp only at hag
    have hcnt : (colorPass same palette (fun _ => 0) W).cnt
        = (colorPass same palette g1 W).cnt := colorPassAux_cnt_indep same palette W _ _ W
    rw [hcnt] at hag
    simp only [Option.map]
    rw [show colorPass same palette g1 W = colorPass same palette g2 W from
      colorPassAux_congr same palette W g1 g2 W hag]

/-- Row collection only depends on the rows in range. -/
theorem rowsUpTo_congr (f1 f2 : ℕ → Option RowResult) :
    ∀ n, (∀ y < n, f1 y = f2 y) → rowsUpTo f1 n = rowsUpTo f2 n := by
  intro n
  induction n with
  | zero => intro _; rfl
  | succ n ih =>
    intro hag
    rw [rowsUpTo, rowsUpTo, ih fun y hy => hag y (by omega), hag n (by omega)]

/-- C2, amended: two synthesis calls over the same depth field,
configuration and identically seeded color source produce byte-identical
output images provided the goroutine scheduler also hands each row the
same positions of the shared random stream in both runs (for each row
`y < H` and each of its `rowDrawCount` draws, both schedules read the
same stream value).  Identical seeding alone does not suffice: with two
or more rows, two valid interleavings of the shared source yield
different images (see `claim_C2_counterexample`). -/
theorem claim_C2_schedule_determinism (zBuf : ℕ → ℕ → ℚ) (W H : ℕ) (mu e : ℚ)
    (palette : List Color) (split1 split2 : ℕ → ℕ → ℕ) (g : ℕ → ℕ)
    (hag : ∀ y < H, ∀ i < rowDrawCount zBuf W mu e palette y,
      g (split1 y i) = g (split2 y i)) :
    drawAutoStereogram zBuf W H mu e palette split1 g
      = drawAutoStereogram zBuf W H mu e palette split2 g := by
  rw [drawAutoStereogram, drawAutoStereogram,
    rowsUpTo_congr _ _ H fun y hy =>
      drawRow_congr zBuf W mu e palette _ _ y fun i hi => hag y hy i hi]

/-- A schedule of the shared seeded source among the row goroutines is
valid when each row reads its draws at strictly increasing stream
positions, no position is read twice, and all positions lie in the
initial segment of the stream that the run consumes. -/
def ValidSplit (H : ℕ) (counts : ℕ → ℕ) (split : ℕ → ℕ → ℕ) : Prop :=
  (∀ y < H, ∀ i < counts y, ∀ j < counts y, i < j → split y i < split y j) ∧
  (∀ y1 < H, ∀ y2 < H, ∀ i < counts y1, ∀ j < counts y2,
    split y1 i = split y2 j → y1 = y2) ∧
  (∀ y1 < H, ∀ y2 < H, ∀ i < counts y1, ∀ j < counts y2,
    split y1 i = split y2 j → i = j) ∧
  (∀ y < H, ∀ i < counts y,
    split y i < (List.range H).foldl (fun acc y2 => acc + counts y2) 0)

instance (H : ℕ) (counts : ℕ → ℕ) (split : ℕ → ℕ → ℕ) :
    Decidable (ValidSplit H counts split) := by
  unfold ValidSplit
  exact @instDecidableAnd _ _ inferInstance
    (@instDecidableAnd _ _ inferInstance (@instDecidableAnd _ _ inferInstance inferInstance))

unseal Rat.mul Rat.inv Rat.add Rat.sub in
/-- Counterexample to C2 as frozen: a 1×2 all-background mask with a
two-color palette consumes one draw per row; both assignments of the
first two positions of the seeded stream to the two rows are valid
interleavings of the shared `math/rand` source, yet they color pixel
`(0,0)` with different palette entries — identical seeding does not make
repeated calls byte-identical. -/
theorem claim_C2_counterexample :
    ValidSplit 2 (fun _ => 1) (fun y _ => y) ∧
    ValidSplit 2 (fun _ => 1) (fun y _ => 1 - y) ∧
    (∀ y < 2, rowDrawCount (fun _ _ => 0) 1 (1 / 3) 180
      [{ R := 255, G := 0, B := 0, A := 255 }, { R := 0, G := 0, B := 0, A := 255 }] y = 1) ∧
    drawAutoStereogram (fun _ _ => 0) 1 2 (1 / 3) 180
        [{ R := 255, G := 0, B := 0, A := 255 }, { R := 0, G := 0, B := 0, A := 255 }]
        (fun y _ => y) (fun i => i)
      ≠ drawAutoStereogram (fun _ _ => 0) 1 2 (1 / 3) 180
        [{ R := 255, G := 0, B := 0, A := 255 }, { R := 0, G := 0, B := 0, A := 255 }]
        (fun y _ => 1 - y) (fun i => i) := by
  refine ⟨by decide, by decide, by decide, by decide⟩

unseal Rat.mul Rat.inv Rat.add Rat.sub in
/-- Witness for the amended C2: a single-row synthesis under two schedules
that agree on the draws row 0 consumes gives identical images. -/
theorem claim_C2_witness :
    drawAutoStereogram (fun _ _ => 0) 1 1 (1 / 3) 180 [{ R := 0, G := 0, B := 0, A := 255 }]
        (fun _ i => i) (fun i => i)
      = drawAutoStereogram (fun _ _ => 0) 1 1 (1 / 3) 180 [{ R := 0, G := 0, B := 0, A := 255 }]
        (fun y i => i + y) (fun i => i) :=
  claim_C2_schedule_determinism (fun _ _ => 0) 1 1 (1 / 3) 180
    [{ R := 0, G := 0, B := 0, A := 255 }] (fun _ i => i) (fun y i => i + y) (fun i => i)
    (by decide)

end Deepx
